import Mathlib

/-!
Verification of the tool-calling conversation loop and the sandboxed
tool-execution layer of the code_query_cli repository.

The Go sources are shallowly embedded: pure functions become Lean
functions on `String` / `List Char`; the filesystem, the external
process runner and the remote chat endpoint are modelled as explicit
state or oracle parameters.  Standard-library path helpers
(`filepath.Clean`, `filepath.Base`, `filepath.Dir`, `filepath.Match`,
`filepath.Abs`) are embedded with their documented Unix semantics.
String primitives are implemented on character lists so that every
definition evaluates inside the kernel.
-/

/-- Go strings.HasPrefix on character lists. -/
def hasPrefixStr (s p : String) : Bool :=
  p.toList.isPrefixOf s.toList

/-- Go strings.HasSuffix on character lists. -/
def hasSuffixStr (s suff : String) : Bool :=
  suff.toList.isSuffixOf s.toList

/-- Go strings.Split for a single-character separator: the list of
(possibly empty) pieces between occurrences of the separator; an empty
input yields one empty piece. -/
def splitOnChar (sep : Char) : List Char → List (List Char)
  | [] => [[]]
  | c :: rest =>
    if c = sep then [] :: splitOnChar sep rest
    else
      match splitOnChar sep rest with
      | l :: ls => (c :: l) :: ls
      | [] => [[c]]

/-- Go strings.Join for a single-character separator. -/
def joinChar (sep : Char) : List (List Char) → List Char
  | [] => []
  | [l] => l
  | l :: ls => l ++ sep :: joinChar sep ls

/-- Drop the trailing characters of a list that belong to the cutset,
the semantics of Go strings.TrimRight. -/
def trimRightIn (cutset : List Char) (cs : List Char) : List Char :=
  (cs.reverse.dropWhile (fun c => cutset.contains c)).reverse

/-- One step of Go path cleaning: push one path segment onto the stack of
already-cleaned segments (stack head is the most recent segment).  Empty
and dot segments are dropped; a dotdot segment pops a poppable segment,
is dropped at the root of a rooted path, and is kept otherwise. -/
def cleanPush (rooted : Bool) (stack : List (List Char)) (seg : List Char) : List (List Char) :=
  if seg = [] ∨ seg = ['.'] then stack
  else if seg = ['.', '.'] then
    match stack with
    | s :: rest => if s = ['.', '.'] then ['.', '.'] :: s :: rest else rest
    | [] => if rooted then [] else [['.', '.']]
  else seg :: stack

/-- Character-list core of Go filepath.Clean for Unix paths: applies the
four lexical simplification rules (collapse separators, drop dot
elements, resolve dotdot elements against preceding elements, drop
dotdot at the root) and returns a dot for an empty result. -/
def cleanChars (cs : List Char) : List Char :=
  if cs = [] then ['.']
  else
    let rooted := cs.head? = some '/'
    let stack := ((splitOnChar '/' cs).foldl (cleanPush rooted) []).reverse
    let body := joinChar '/' stack
    if rooted then
      if body = [] then ['/'] else '/' :: body
    else
      if body = [] then ['.'] else body

/-- Embedding of Go filepath.Clean for Unix paths. -/
def filepathClean (path : String) : String :=
  String.mk (cleanChars path.toList)

/-- Embedding of Go filepath.IsAbs for Unix paths. -/
def filepathIsAbs (path : String) : Bool :=
  hasPrefixStr path "/"

/-- Embedding of Go filepath.Base for Unix paths: the last element of the
path after removing trailing slashes; a dot for the empty path and a
slash when the path consists entirely of slashes. -/
def filepathBase (path : String) : String :=
  if path.toList = [] then "."
  else
    let stripped := trimRightIn ['/'] path.toList
    if stripped = [] then "/"
    else String.mk (stripped.reverse.takeWhile (fun c => c ≠ '/')).reverse

/-- Embedding of Go filepath.Dir for Unix paths: everything up to and
including the final slash, then cleaned. -/
def filepathDir (path : String) : String :=
  let pre := (path.toList.reverse.dropWhile (fun c => c ≠ '/')).reverse
  String.mk (cleanChars pre)

/-- Embedding of getEsc from Go filepath.Match: read one possibly
backslash-escaped character of a bracket class.  Returns none on a
malformed pattern (empty, dash or closing bracket where a character is
required, trailing backslash, or an unclosed class). -/
def getEsc : List Char → Option (Char × List Char)
  | [] => none
  | '-' :: _ => none
  | ']' :: _ => none
  | '\\' :: rest =>
    match rest with
    | [] => none
    | r :: rest' => if rest' = [] then none else some (r, rest')
  | c :: rest => if rest = [] then none else some (c, rest)

/-- Fuel-indexed scan of a bracket class of Go filepath.Match against a
candidate character: accumulates whether any range matched and returns
the pattern remainder after the closing bracket; none on a malformed
class.  Each step consumes at least one pattern character, so fuel equal
to the chunk length plus one always suffices. -/
def scanClassF (c : Char) : Nat → List Char → Nat → Bool → Option (Bool × List Char)
  | 0, _, _, _ => none
  | fuel + 1, chunk, nrange, acc =>
    match chunk, nrange with
    | ']' :: rest, _ + 1 => some (acc, rest)
    | _, _ =>
      match getEsc chunk with
      | none => none
      | some (lo, rest1) =>
        match rest1 with
        | '-' :: rest2 =>
          match getEsc rest2 with
          | none => none
          | some (hi, rest3) =>
            scanClassF c fuel rest3 (nrange + 1) (acc || (decide (lo ≤ c) && decide (c ≤ hi)))
        | _ => scanClassF c fuel rest1 (nrange + 1) (acc || (lo == c))

/-- Scan a bracket class with sufficient fuel. -/
def scanClass (c : Char) (chunk : List Char) : Option (Bool × List Char) :=
  scanClassF c (chunk.length + 1) chunk 0 false

/-- Fuel-indexed core of Go filepath.Match on character lists: star
matches any run of non-separator characters, question mark one
non-separator character, bracket classes match ranges, backslash
escapes, and everything else matches literally; none signals a malformed
pattern (which Go reports as ErrBadPattern with a false match).  Every
recursive call shortens the pattern or the name, so fuel equal to the
sum of their lengths plus one always suffices. -/
def globMatchF : Nat → List Char → List Char → Option Bool
  | 0, _, _ => none
  | fuel + 1, pat, ns =>
    match pat with
    | [] => some ns.isEmpty
    | c :: ps =>
      if c = '*' then
        match globMatchF fuel ps ns with
        | none => none
        | some true => some true
        | some false =>
          match ns with
          | [] => some false
          | n :: ns' => if n = '/' then some false else globMatchF fuel (c :: ps) ns'
      else if c = '?' then
        match ns with
        | [] => some false
        | n :: ns' => if n = '/' then some false else globMatchF fuel ps ns'
      else if c = '[' then
        match ns with
        | [] => some false
        | n :: ns' =>
          let negps := match ps with
            | '^' :: r => (true, r)
            | _ => (false, ps)
          match scanClass n negps.2 with
          | none => none
          | some (m, rest) => if m = negps.1 then some false else globMatchF fuel rest ns'
      else if c = '\\' then
        match ps with
        | [] => none
        | e :: ps' =>
          match ns with
          | [] => some false
          | n :: ns' => if n = e then globMatchF fuel ps' ns' else some false
      else
        match ns with
        | [] => some false
        | n :: ns' => if n = c then globMatchF fuel ps ns' else some false

/-- Run the matcher core with sufficient fuel. -/
def globMatch (ps ns : List Char) : Option Bool :=
  globMatchF (ps.length + ns.length + 1) ps ns

/-- Embedding of the call pattern used throughout ignore.go, where the
error of filepath.Match is discarded: a malformed pattern counts as a
non-match. -/
def filepathMatch (pattern name : String) : Bool :=
  (globMatch pattern.toList name.toList).getD false

/-- Embedding of defaultBlockedPatterns from ignore.go. -/
def defaultBlockedPatterns : List String :=
  [".env",
   ".env.*",
   "*.pem",
   "*.key",
   "*.p12",
   "*.pfx",
   "*.secret",
   "*credentials*",
   "*secret*",
   ".aws/credentials",
   ".ssh/*",
   "id_rsa",
   "id_ed25519",
   "*.keystore",
   ".netrc",
   ".npmrc",
   ".pypirc"]

/-- Embedding of IsPathBlocked from ignore.go, parameterized by the
process-wide blockedPatterns list: the path is cleaned, and each pattern
is matched against the full cleaned path and against its basename; a
pattern without a star is additionally compared for basename equality
and for a slash-pattern suffix of the full path. -/
def IsPathBlocked (patterns : List String) (path : String) : Bool :=
  let cleaned := filepathClean path
  let base := filepathBase cleaned
  patterns.any (fun pattern =>
    filepathMatch pattern cleaned ||
    filepathMatch pattern base ||
    (if pattern.toList.contains '*' then
      filepathMatch pattern base
    else
      (base == pattern || hasSuffixStr cleaned ("/" ++ pattern))))

/-- Embedding of FilterBlockedPaths from ignore.go: the loop that appends
exactly the paths that are not blocked, in input order. -/
def FilterBlockedPaths (patterns : List String) : List String → List String
  | [] => []
  | p :: rest =>
    if IsPathBlocked patterns p then FilterBlockedPaths patterns rest
    else p :: FilterBlockedPaths patterns rest

/-- Embedding of Go filepath.Abs for an already-cleaned Unix path, with
the working directory passed explicitly: an absolute path is returned
cleaned, a relative one is joined onto the working directory and
cleaned. -/
def filepathAbs (cwd : String) (path : String) : String :=
  if filepathIsAbs path then filepathClean path
  else filepathClean (cwd ++ "/" ++ path)

/-- Embedding of validatePath from tools.go, with the absolute current
working directory (Go filepath.Abs of dot) passed explicitly.  The
os-failure branches of filepath.Abs cannot occur in the model and are
omitted. -/
def validatePath (cwd : String) (path : String) : Except String String :=
  let clean := filepathClean path
  if hasPrefixStr clean ".." || filepathIsAbs clean then
    let abs := filepathAbs cwd clean
    if !(hasPrefixStr abs cwd) then
      .error ("path traversal not allowed: " ++ path)
    else
      .ok clean
  else
    .ok clean

/-- Spec-side definition, following the specification's words: a path
whose absolute resolution remains a descendant of the absolute current
working directory, that is, it equals the working directory or lies
strictly below it. -/
def resolvesInsideCwd (cwd : String) (path : String) : Bool :=
  let abs := filepathAbs cwd (filepathClean path)
  abs == cwd || hasPrefixStr abs (cwd ++ "/")

/-- Model of a decoded JSON argument value, covering the dynamic types
the tool layer inspects (string, number, boolean).  JSON numbers are
modelled as integers; the float64-to-int truncation of getInt is outside
the scope of the verified claims. -/
inductive JVal where
  | str (s : String)
  | num (n : Int)
  | bool (b : Bool)
deriving DecidableEq

/-- Model of the decoded args map of ExecuteTool. -/
abbrev Args := List (String × JVal)

/-- Dynamic lookup in the decoded args map. -/
def lookupArg (args : Args) (key : String) : Option JVal :=
  match args.find? (fun kv => kv.1 == key) with
  | some kv => some kv.2
  | none => none

/-- Embedding of getString from tools.go: the string value of the key
when present, non-empty and of string type, the default otherwise. -/
def getString (args : Args) (key dflt : String) : String :=
  match lookupArg args key with
  | some (.str v) => if v ≠ "" then v else dflt
  | _ => dflt

/-- Embedding of getInt from tools.go. -/
def getInt (args : Args) (key : String) (dflt : Int) : Int :=
  match lookupArg args key with
  | some (.num v) => v
  | _ => dflt

/-- Embedding of getBool from tools.go. -/
def getBool (args : Args) (key : String) (dflt : Bool) : Bool :=
  match lookupArg args key with
  | some (.bool v) => v
  | _ => dflt

/-- Outcome of one external process invocation, the oracle for
cmd.CombinedOutput under a 30-second context: the combined output, the
error flag of CombinedOutput, whether the context deadline was
exceeded, and the message of the non-timeout error. -/
structure CmdResult where
  output : String
  failed : Bool
  timedOut : Bool
  errMsg : String

/-- The truncation step of runCommand from tools.go: output longer than
50000 characters is cut and a truncation marker appended.  Go measures
bytes; the model measures characters. -/
def truncateOutput (s : String) : String :=
  if s.toList.length > 50000 then String.mk (s.toList.take 50000) ++ "\n... (output truncated)"
  else s

/-- Embedding of runCommand from tools.go applied to the oracle outcome
of the process: truncate, then on failure report a timeout as the fixed
timeout error, return non-empty output as success, and surface the
process error otherwise. -/
def runCommandRes (r : CmdResult) : Except String String :=
  let result := truncateOutput r.output
  if r.failed then
    if r.timedOut then .error "command timed out"
    else if result ≠ "" then .ok result
    else .error r.errMsg
  else .ok result

/-- Oracle for the external process environment: maps a command name and
argument list to the outcome of running it. -/
abbrev ExecEnv := String → List String → CmdResult

/-- Embedding of runCommand from tools.go against the process oracle. -/
def runCommand (env : ExecEnv) (name : String) (cmdArgs : List String) : Except String String :=
  runCommandRes (env name cmdArgs)

/-- Embedding of executeLs from tools.go. -/
def executeLs (env : ExecEnv) (args : Args) : Except String String :=
  let path := getString args "path" "."
  runCommand env "ls" ["-la", path]

/-- Embedding of executeCat from tools.go: requires a path, consults the
sensitive-path filter on it, then runs cat. -/
def executeCat (env : ExecEnv) (patterns : List String) (args : Args) : Except String String :=
  let path := getString args "path" ""
  if path = "" then .error "path is required"
  else if IsPathBlocked patterns path then .error ("access denied: " ++ path ++ " is in ignore list")
  else runCommand env "cat" [path]

/-- Embedding of executeHead from tools.go. -/
def executeHead (env : ExecEnv) (patterns : List String) (args : Args) : Except String String :=
  let path := getString args "path" ""
  if path = "" then .error "path is required"
  else if IsPathBlocked patterns path then .error ("access denied: " ++ path ++ " is in ignore list")
  else
    let lines := getInt args "lines" 50
    runCommand env "head" ["-n", toString lines, path]

/-- The per-line drop condition of the grep output filter in
executeGrep: the line is dropped exactly when its first colon sits at a
positive index and the segment before it is a blocked path. -/
def grepLineDrop (patterns : List String) (line : List Char) : Bool :=
  match line.findIdx? (fun c => c = ':') with
  | some idx => decide (0 < idx) && IsPathBlocked patterns (String.mk (line.take idx))
  | none => false

/-- The output-filter loop of executeGrep from tools.go: appends exactly
the lines that are not dropped, in input order. -/
def grepFilterLoop (patterns : List String) : List (List Char) → List (List Char)
  | [] => []
  | line :: rest =>
    if grepLineDrop patterns line then grepFilterLoop patterns rest
    else line :: grepFilterLoop patterns rest

/-- Embedding of executeGrep from tools.go: requires a pattern, builds
the grep argument list with the option terminator before the pattern,
runs grep, and filters blocked filenames out of the per-line output. -/
def executeGrep (env : ExecEnv) (patterns : List String) (args : Args) : Except String String :=
  let pattern := getString args "pattern" ""
  if pattern = "" then .error "pattern is required"
  else
    let path := getString args "path" "."
    let recursive := getBool args "recursive" true
    let grepArgs := (["-n", "--color=never"] ++ (if recursive then ["-r"] else [])) ++ ["--", pattern, path]
    match runCommand env "grep" grepArgs with
    | .error e => .error e
    | .ok result =>
      .ok (String.mk (joinChar '\n' (grepFilterLoop patterns (splitOnChar '\n' result.toList))))

/-- Go strings.TrimSpace restricted to ASCII whitespace. -/
def trimSpaceChars (cs : List Char) : List Char :=
  ((cs.dropWhile (fun c => [' ', '\t', '\n', '\r'].contains c)).reverse.dropWhile
    (fun c => [' ', '\t', '\n', '\r'].contains c)).reverse

/-- The output-filter loop of executeFind from tools.go: trims each
line, drops blank lines and blocked paths, keeps the rest in order. -/
def findFilterLoop (patterns : List String) : List (List Char) → List (List Char)
  | [] => []
  | line :: rest =>
    let t := trimSpaceChars line
    if t.isEmpty || IsPathBlocked patterns (String.mk t) then findFilterLoop patterns rest
    else t :: findFilterLoop patterns rest

/-- Embedding of executeFind from tools.go. -/
def executeFind (env : ExecEnv) (patterns : List String) (args : Args) : Except String String :=
  let pattern := getString args "pattern" ""
  if pattern = "" then .error "pattern is required"
  else
    let path := getString args "path" "."
    match runCommand env "find" [path, "-name", pattern, "-type", "f"] with
    | .error e => .error e
    | .ok result =>
      .ok (String.mk (joinChar '\n' (findFilterLoop patterns (splitOnChar '\n' result.toList))))

/-- Embedding of executeTree from tools.go: try tree, fall back to a
depth-limited find listing when tree fails. -/
def executeTree (env : ExecEnv) (args : Args) : Except String String :=
  let path := getString args "path" "."
  let depth := getInt args "depth" 3
  match runCommand env "tree" ["-L", toString depth, path] with
  | .error _ => runCommand env "find" [path, "-maxdepth", toString depth, "-print"]
  | .ok result => .ok result

/-- The composition of the two strings.ReplaceAll calls of
formatMarkdown, as one character pass with identical semantics: every
carriage-return-linefeed pair becomes one linefeed, every remaining
carriage return becomes a linefeed. -/
def normalizeNewlines : List Char → List Char
  | [] => []
  | '\r' :: '\n' :: rest => '\n' :: normalizeNewlines rest
  | '\r' :: rest => '\n' :: normalizeNewlines rest
  | c :: rest => c :: normalizeNewlines rest

/-- The line loop of formatMarkdown from tools.go: trim trailing spaces
and tabs from each line, count consecutive blank lines and keep at most
two of each run. -/
def fmLoop : List (List Char) → Nat → List (List Char)
  | [], _ => []
  | line :: rest, blankLineCount =>
    let trimmed := trimRightIn [' ', '\t'] line
    if trimmed = [] then
      if blankLineCount + 1 ≤ 2 then [] :: fmLoop rest (blankLineCount + 1)
      else fmLoop rest (blankLineCount + 1)
    else trimmed :: fmLoop rest 0

/-- Embedding of formatMarkdown from tools.go: normalize line endings,
trim and collapse lines, rejoin, and end with exactly one newline. -/
def formatMarkdown (content : String) : String :=
  let cs := normalizeNewlines content.toList
  let lines := splitOnChar '\n' cs
  let formatted := fmLoop lines 0
  let result := joinChar '\n' formatted
  String.mk (trimRightIn ['\n'] result ++ ['\n'])

/-- ASCII lowercase of one character, the fragment of Go
strings.ToLower exercised by the markdown extension check. -/
def asciiLower (c : Char) : Char :=
  if 'A' ≤ c ∧ c ≤ 'Z' then Char.ofNat (c.toNat + 32) else c

/-- Go strings.ToLower restricted to ASCII letters. -/
def strToLower (s : String) : String :=
  String.mk (s.toList.map asciiLower)

/-- Model of the filesystem state visible to executeWriteMarkdown: the
file store, the directory set, and two oracle flags deciding whether
os.MkdirAll and os.WriteFile fail.  os.WriteFile is modelled as atomic:
it either fails leaving the store unchanged or records the full
content. -/
structure FS where
  files : List (String × String)
  dirs : List String
  mkdirFails : Bool
  writeFails : Bool

/-- Model of os.Stat succeeding: some entry exists at the path. -/
def statExists (fs : FS) (path : String) : Bool :=
  fs.files.any (fun kv => kv.1 == path) || fs.dirs.contains path

/-- Model of os.MkdirAll under the failure oracle; on failure the file
store is untouched. -/
def mkdirAll (fs : FS) (dir : String) : Except String FS :=
  if fs.mkdirFails then .error "mkdir failed"
  else .ok { fs with dirs := dir :: fs.dirs }

/-- Model of os.WriteFile under the failure oracle. -/
def writeFile (fs : FS) (path content : String) : Except String FS :=
  if fs.writeFails then .error "write failed"
  else .ok { fs with files := (path, content) :: fs.files }

/-- Embedding of executeWriteMarkdown from tools.go: require a non-empty
path with a markdown extension (case-insensitively), require non-empty
content, format it, validate the path, refuse an existing target, create
the parent directory chain, then write the file. -/
def executeWriteMarkdown (cwd : String) (fs : FS) (args : Args) : Except String String × FS :=
  let path := getString args "path" ""
  if path = "" then (.error "path is required", fs)
  else if !(hasSuffixStr (strToLower path) ".md") then
    (.error "only markdown files (.md) can be created", fs)
  else
    let content := getString args "content" ""
    if content = "" then (.error "content is required", fs)
    else
      let formattedContent := formatMarkdown content
      match validatePath cwd path with
      | .error e => (.error e, fs)
      | .ok clean =>
        if statExists fs clean then (.error ("file already exists: " ++ path), fs)
        else
          match mkdirAll fs (filepathDir clean) with
          | .error e => (.error ("failed to create directory: " ++ e), fs)
          | .ok fs1 =>
            match writeFile fs1 clean formattedContent with
            | .error e => (.error ("failed to write file: " ++ e), fs1)
            | .ok fs2 => (.ok ("Successfully created markdown file: " ++ path), fs2)

/-- The dispatch switch of ExecuteTool from tools.go. -/
def executeToolDispatch (env : ExecEnv) (patterns : List String) (cwd : String) (fs : FS)
    (name : String) (args : Args) : Except String String × FS :=
  match name with
  | "ls" => (executeLs env args, fs)
  | "cat" => (executeCat env patterns args, fs)
  | "head" => (executeHead env patterns args, fs)
  | "grep" => (executeGrep env patterns args, fs)
  | "find" => (executeFind env patterns args, fs)
  | "tree" => (executeTree env args, fs)
  | "write_markdown" => executeWriteMarkdown cwd fs args
  | other => (.error ("unknown tool: " ++ other), fs)

/-- Embedding of ExecuteTool from tools.go, starting from the decoded
argument map (the malformed-JSON branch of json.Unmarshal is outside the
model): when a string path argument is present it is validated before
dispatch, and a validation failure aborts the call. -/
def ExecuteTool (env : ExecEnv) (patterns : List String) (cwd : String) (fs : FS)
    (name : String) (args : Args) : Except String String × FS :=
  match lookupArg args "path" with
  | some (.str path) =>
    match validatePath cwd path with
    | .error e => (.error e, fs)
    | .ok _ => executeToolDispatch env patterns cwd fs name args
  | _ => executeToolDispatch env patterns cwd fs name args

/-- Embedding of ToolCall from client.go, with the nested function
object flattened into name and arguments. -/
structure ToolCall where
  id : String
  type : String
  name : String
  arguments : String

/-- Embedding of Message from client.go. -/
structure Message where
  role : String
  content : String
  toolCalls : List ToolCall
  toolCallID : String
  reasoning : String

/-- The choices object of one successful chat-completions response. -/
structure ChatChoices where
  choices : List Message

/-- Oracle for the remote endpoint: the sequence of results of the
successive sendRequest calls during one Chat invocation.  An exhausted
script stands for a transport failure. -/
abbrev ChatScript := List (Except String ChatChoices)

/-- Embedding of Client from client.go, reduced to the state the
conversation logic touches: the message history. -/
structure Client where
  messages : List Message

/-- The system instruction message installed by NewClient.  The fixed
instruction text is abstracted as a parameter; only its system role
matters to the conversation logic. -/
def systemMsg (prompt : String) : Message :=
  { role := "system", content := prompt, toolCalls := [], toolCallID := "", reasoning := "" }

/-- The user message appended by Chat. -/
def userMsg (text : String) : Message :=
  { role := "user", content := text, toolCalls := [], toolCallID := "", reasoning := "" }

/-- Embedding of NewClient from client.go: the history starts with the
single system instruction message. -/
def NewClient (systemPrompt : String) : Client :=
  { messages := [systemMsg systemPrompt] }

/-- The tool-result message appended by the Chat loop for one tool call:
the executor result, or the formatted error string on executor failure,
tagged with the originating call's id.  The tool executor is abstracted
as a function parameter. -/
def toolResultMessage (execT : String → String → Except String String) (tc : ToolCall) : Message :=
  let result := match execT tc.name tc.arguments with
    | .ok s => s
    | .error e => "Error: " ++ e
  { role := "tool", content := result, toolCalls := [], toolCallID := tc.id, reasoning := "" }

/-- The request loop of Chat from client.go, driven by the response
script: each iteration appends the assistant message, then either
executes its tool calls and appends their results before looping, or
returns its text (or the reasoning fallback) as the final answer.
Returns the result together with the history as mutated so far. -/
def chatLoop (execT : String → String → Except String String) :
    ChatScript → List Message → Except String String × List Message
  | [], msgs => (.error "request failed", msgs)
  | resp :: rest, msgs =>
    match resp with
    | .error e => (.error e, msgs)
    | .ok r =>
      match r.choices with
      | [] => (.error "no response from model", msgs)
      | choice :: _ =>
        let msgs' := msgs ++ [choice]
        if choice.toolCalls.isEmpty then
          let response := if choice.content = "" ∧ choice.reasoning ≠ "" then choice.reasoning else choice.content
          (.ok response, msgs')
        else
          chatLoop execT rest (msgs' ++ choice.toolCalls.map (toolResultMessage execT))

/-- Embedding of Chat from client.go: append the user message, then run
the request loop. -/
def Chat (execT : String → String → Except String String) (script : ChatScript)
    (c : Client) (userMessage : String) : Except String String × Client :=
  let msgs := c.messages ++ [userMsg userMessage]
  let r := chatLoop execT script msgs
  (r.1, { messages := r.2 })

/-- Embedding of Reset from client.go: truncate the history to its first
message. -/
def Reset (c : Client) : Client :=
  { messages := c.messages.take 1 }

/-- The clients reachable from a fresh client through Chat and Reset. -/
inductive Reachable : Client → Prop where
  | init (prompt : String) : Reachable (NewClient prompt)
  | chat (c : Client) (execT : String → String → Except String String)
      (script : ChatScript) (user : String) :
      Reachable c → Reachable (Chat execT script c user).2
  | reset (c : Client) : Reachable c → Reachable (Reset c)

/-- Spec-side: the messages one tool round contributes to the history,
the assistant message followed by one tool result per call. -/
def roundMessages (execT : String → String → Except String String) (assistantMsg : Message) : List Message :=
  assistantMsg :: assistantMsg.toolCalls.map (toolResultMessage execT)

/-- Spec-side: scan for three consecutive blank lines, carrying the
current run length of blanks. -/
def hasThreeBlanksAux : Nat → List (List Char) → Bool
  | _, [] => false
  | run, l :: rest =>
    if l = [] then (if run + 1 ≥ 3 then true else hasThreeBlanksAux (run + 1) rest)
    else hasThreeBlanksAux 0 rest

/-- Spec-side: remove the trailing blank lines of a line list. -/
def dropTrailingBlanks (ls : List (List Char)) : List (List Char) :=
  (ls.reverse.dropWhile (fun l => l.isEmpty)).reverse

/-- Spec-side: a glob pattern that contains none of the four filepath
metacharacters, so that shell-glob matching degenerates to literal
equality. -/
def noGlobMeta (s : String) : Prop :=
  ∀ c ∈ s.toList, c ≠ '*' ∧ c ≠ '?' ∧ c ≠ '[' ∧ c ≠ '\\'

instance (s : String) : Decidable (noGlobMeta s) := by
  unfold noGlobMeta
  infer_instance

theorem FilterBlockedPaths_eq_filter (patterns : List String) (l : List String) :
    FilterBlockedPaths patterns l = l.filter (fun p => !IsPathBlocked patterns p) := by
  induction l with
  | nil => rfl
  | cons p rest ih =>
    by_cases h : IsPathBlocked patterns p = true
    · simp [FilterBlockedPaths, h, ih]
    · simp [FilterBlockedPaths, h, ih]

/-- C9: FilterBlockedPaths is idempotent, and the surviving entries keep
their relative input order, expressed as the output being a sublist of
the input. -/
theorem claim_C9_filterBlockedPaths_idempotent (patterns : List String) (l : List String) :
    FilterBlockedPaths patterns (FilterBlockedPaths patterns l) = FilterBlockedPaths patterns l ∧
    (FilterBlockedPaths patterns l).Sublist l := by
  rw [FilterBlockedPaths_eq_filter, FilterBlockedPaths_eq_filter]
  exact ⟨by rw [List.filter_filter]; simp, List.filter_sublist l⟩

/-- C5: the runCommand post-processing of a process outcome.  Output over
50000 characters is truncated with the trailing marker; a failing exit
whose (truncated) output is non-empty is a success carrying that output;
a failing exit with empty output surfaces the process error; a deadline
timeout under a failing exit is always the fixed timeout error,
regardless of output. -/
theorem claim_C5_runCommand_semantics (r : CmdResult) :
    (r.failed = true → r.timedOut = true → runCommandRes r = .error "command timed out") ∧
    (r.failed = true → r.timedOut = false → truncateOutput r.output ≠ "" →
      runCommandRes r = .ok (truncateOutput r.output)) ∧
    (r.failed = true → r.timedOut = false → r.output = "" → runCommandRes r = .error r.errMsg) ∧
    (r.failed = false → runCommandRes r = .ok (truncateOutput r.output)) ∧
    (r.output.toList.length ≤ 50000 → truncateOutput r.output = r.output) ∧
    (50000 < r.output.toList.length →
      truncateOutput r.output = String.mk (r.output.toList.take 50000) ++ "\n... (output truncated)") := by
  refine ⟨?_, ?_, ?_, ?_, ?_, ?_⟩
  · intro h1 h2
    simp [runCommandRes, h1, h2]
  · intro h1 h2 h3
    simp [runCommandRes, h1, h2, h3]
  · intro h1 h2 h3
    simp [runCommandRes, h1, h2, h3, truncateOutput]
  · intro h1
    simp [runCommandRes, h1]
  · intro h1
    simp only [truncateOutput]
    rw [if_neg (by omega)]
  · intro h1
    simp only [truncateOutput]
    rw [if_pos (by omega)]

theorem claim_C5_runCommand_semantics_witness :
    runCommandRes { output := "out", failed := true, timedOut := true, errMsg := "exit status 1" } =
      .error "command timed out" ∧
    runCommandRes { output := "out", failed := true, timedOut := false, errMsg := "exit status 1" } =
      .ok (truncateOutput "out") ∧
    runCommandRes { output := "", failed := true, timedOut := false, errMsg := "exit status 2" } =
      .error "exit status 2" ∧
    runCommandRes { output := "all good", failed := false, timedOut := false, errMsg := "" } =
      .ok (truncateOutput "all good") :=
  ⟨(claim_C5_runCommand_semantics _).1 rfl rfl,
   (claim_C5_runCommand_semantics _).2.1 rfl rfl (by decide),
   (claim_C5_runCommand_semantics _).2.2.1 rfl rfl rfl,
   (claim_C5_runCommand_semantics _).2.2.2.1 rfl⟩

/-- C1, code evaluation at the failing input: with working directory
slash-work, the absolute path slash-workshop resolves outside the
working directory (it is not a descendant), yet validatePath accepts it,
because the containment check is an unanchored string-prefix test.  The
companion conjuncts show the traversal rejection and the in-tree
acceptance the claim describes do hold elsewhere. -/
theorem claim_C1_validatePath_prefix_collision :
    validatePath "/work" "/workshop" = .ok "/workshop" ∧
    resolvesInsideCwd "/work" "/workshop" = false ∧
    validatePath "/work" "../outside" = .error "path traversal not allowed: ../outside" ∧
    resolvesInsideCwd "/work" "../outside" = false ∧
    validatePath "/work" "/work/sub/a.txt" = .ok "/work/sub/a.txt" ∧
    resolvesInsideCwd "/work" "/work/sub/a.txt" = true ∧
    validatePath "/work" "/etc/passwd" = .error "path traversal not allowed: /etc/passwd" :=
  ⟨rfl, by decide, rfl, by decide, rfl, by decide, rfl⟩

theorem globMatchF_noMeta_self (ps : List Char)
    (hm : ∀ c ∈ ps, c ≠ '*' ∧ c ≠ '?' ∧ c ≠ '[' ∧ c ≠ '\\') :
    ∀ fuel, ps.length < fuel → globMatchF fuel ps ps = some true := by
  induction ps with
  | nil =>
    intro fuel hf
    match fuel with
    | f + 1 => rfl
  | cons c ps ih =>
    intro fuel hf
    match fuel with
    | f + 1 =>
      have hc := hm c (List.mem_cons_self _ _)
      have hps : ∀ x ∈ ps, x ≠ '*' ∧ x ≠ '?' ∧ x ≠ '[' ∧ x ≠ '\\' :=
        fun x hx => hm x (List.mem_cons_of_mem _ hx)
      have hlt : ps.length < f := by
        simpa [Nat.succ_lt_succ_iff] using hf
      simp only [globMatchF, if_neg hc.1, if_neg hc.2.1, if_neg hc.2.2.1, if_neg hc.2.2.2,
        if_pos rfl]
      exact ih hps f hlt

theorem globMatchF_noMeta_ne (ps : List Char) :
    ∀ (ns : List Char) (fuel : Nat),
      (∀ c ∈ ps, c ≠ '*' ∧ c ≠ '?' ∧ c ≠ '[' ∧ c ≠ '\\') →
      ps.length < fuel → ps ≠ ns →
      globMatchF fuel ps ns = some false := by
  induction ps with
  | nil =>
    intro ns fuel _ hf hne
    match fuel with
    | f + 1 =>
      cases ns with
      | nil => exact absurd rfl hne
      | cons n ns => rfl
  | cons c ps ih =>
    intro ns fuel hm hf hne
    match fuel with
    | f + 1 =>
      have hc := hm c (List.mem_cons_self _ _)
      have hps : ∀ x ∈ ps, x ≠ '*' ∧ x ≠ '?' ∧ x ≠ '[' ∧ x ≠ '\\' :=
        fun x hx => hm x (List.mem_cons_of_mem _ hx)
      have hlt : ps.length < f := by
        simpa [Nat.succ_lt_succ_iff] using hf
      cases ns with
      | nil =>
        simp only [globMatchF, if_neg hc.1, if_neg hc.2.1, if_neg hc.2.2.1, if_neg hc.2.2.2]
      | cons n ns =>
        simp only [globMatchF, if_neg hc.1, if_neg hc.2.1, if_neg hc.2.2.1, if_neg hc.2.2.2]
        by_cases he : n = c
        · subst he
          rw [if_pos rfl]
          exact ih ns f hps hlt (fun h => hne (by rw [h]))
        · rw [if_neg he]

theorem filepathMatch_noMeta (pat s : String) (h : noGlobMeta pat) :
    filepathMatch pat s = true ↔ pat = s := by
  constructor
  · intro hm
    by_contra hne
    have hne' : pat.toList ≠ s.toList := by
      intro he
      exact hne (by
        have : pat.data = s.data := he
        exact String.ext this)
    rw [filepathMatch, globMatch,
      globMatchF_noMeta_ne pat.toList s.toList _ h (by omega) hne'] at hm
    simp at hm
  · rintro rfl
    rw [filepathMatch, globMatch, globMatchF_noMeta_self pat.toList h _ (by omega)]
    rfl

/-- C2, amended: for a single blocked pattern with no glob
metacharacters, IsPathBlocked holds exactly when the cleaned path equals
the pattern, the basename equals the pattern, or the cleaned path ends
in a slash followed by the pattern; and the particular default-set
examples of the claim hold. -/
theorem claim_C2_nonglob_patterns :
    (∀ pat path : String, noGlobMeta pat →
      (IsPathBlocked [pat] path = true ↔
        (filepathClean path = pat ∨
         filepathBase (filepathClean path) = pat ∨
         hasSuffixStr (filepathClean path) ("/" ++ pat) = true))) ∧
    IsPathBlocked defaultBlockedPatterns "id_rsa" = true ∧
    IsPathBlocked defaultBlockedPatterns "foo/id_rsa" = true ∧
    IsPathBlocked defaultBlockedPatterns "id_rsa.pub" = false := by
  refine ⟨?_, by decide, by decide, by decide⟩
  intro pat path h
  have hmem : '*' ∉ pat.toList := fun hm => (h '*' hm).1 rfl
  have hstar : pat.toList.contains '*' = false := by
    simpa using hmem
  simp only [IsPathBlocked, List.any_cons, List.any_nil, Bool.or_false, hstar,
    Bool.false_eq_true, if_false, Bool.or_eq_true, beq_iff_eq,
    filepathMatch_noMeta _ _ h]
  constructor
  · rintro ((h1 | h1) | (h1 | h1))
    · exact Or.inl h1.symm
    · exact Or.inr (Or.inl h1.symm)
    · exact Or.inr (Or.inl h1)
    · exact Or.inr (Or.inr h1)
  · rintro (h1 | h1 | h1)
    · exact Or.inl (Or.inl h1.symm)
    · exact Or.inr (Or.inl h1)
    · exact Or.inr (Or.inr h1)

theorem claim_C2_nonglob_patterns_witness :
    IsPathBlocked ["id_rsa"] "foo/id_rsa" = true ∧
    IsPathBlocked ["id_rsa"] "id_rsa.pub" = false := by
  constructor
  · exact (claim_C2_nonglob_patterns.1 "id_rsa" "foo/id_rsa" (by decide)).mpr
      (Or.inr (Or.inl (by decide)))
  · rcases Bool.eq_false_or_eq_true (IsPathBlocked ["id_rsa"] "id_rsa.pub") with ht | hf
    · exact absurd ((claim_C2_nonglob_patterns.1 "id_rsa" "id_rsa.pub" (by decide)).mp ht)
        (by decide)
    · exact hf

/-- C2, counterexample to the claim as stated: the default pattern for
aws credentials contains no glob metacharacters, and the path equal to
it is blocked, yet neither its basename equals the pattern nor does the
cleaned path end in a slash followed by the pattern, so the claimed
characterization fails at this input. -/
theorem claim_C2_counterexample :
    noGlobMeta ".aws/credentials" ∧
    ¬ (IsPathBlocked [".aws/credentials"] ".aws/credentials" = true ↔
       (filepathBase (filepathClean ".aws/credentials") = ".aws/credentials" ∨
        hasSuffixStr (filepathClean ".aws/credentials") ("/" ++ ".aws/credentials") = true)) := by
  constructor
  · decide
  · decide

/-- C6: the grep output post-processing drops exactly the lines whose
segment before the first colon, when that colon is at a positive index,
is a blocked path (the loop equals a list filter, so all other lines
pass unchanged and in input order); lines with no colon or with a colon
at index zero are never dropped. -/
theorem claim_C6_grep_line_filter (patterns : List String) (lines : List (List Char)) :
    grepFilterLoop patterns lines = lines.filter (fun line => !grepLineDrop patterns line) ∧
    (∀ line : List Char, line.findIdx? (fun c => c = ':') = none →
      grepLineDrop patterns line = false) ∧
    (∀ line : List Char, line.findIdx? (fun c => c = ':') = some 0 →
      grepLineDrop patterns line = false) ∧
    (∀ (line : List Char) (idx : Nat), line.findIdx? (fun c => c = ':') = some idx → 0 < idx →
      grepLineDrop patterns line = IsPathBlocked patterns (String.mk (line.take idx))) := by
  refine ⟨?_, ?_, ?_, ?_⟩
  · induction lines with
    | nil => rfl
    | cons l rest ih =>
      by_cases h : grepLineDrop patterns l = true
      · simp [grepFilterLoop, h, ih]
      · simp [grepFilterLoop, h, ih]
  · intro line h
    simp [grepLineDrop, h]
  · intro line h
    simp [grepLineDrop, h]
  · intro line idx h hpos
    simp [grepLineDrop, h, hpos]

theorem claim_C6_grep_line_filter_witness :
    grepFilterLoop defaultBlockedPatterns
      [("id_rsa:1:key material").toList, (":1:leading colon").toList,
       ("no colon here").toList, ("main.go:2:func main").toList] =
      [(":1:leading colon").toList, ("no colon here").toList, ("main.go:2:func main").toList] ∧
    grepLineDrop defaultBlockedPatterns ("no colon here").toList = false := by
  have h := claim_C6_grep_line_filter defaultBlockedPatterns
    [("id_rsa:1:key material").toList, (":1:leading colon").toList,
     ("no colon here").toList, ("main.go:2:func main").toList]
  refine ⟨?_, h.2.1 ("no colon here").toList (by decide)⟩
  rw [h.1]
  decide

theorem chatLoop_messages_extend (execT : String → String → Except String String)
    (script : ChatScript) :
    ∀ msgs : List Message, ∃ t, (chatLoop execT script msgs).2 = msgs ++ t := by
  induction script with
  | nil =>
    intro msgs
    exact ⟨[], by simp [chatLoop]⟩
  | cons resp rest ih =>
    intro msgs
    cases resp with
    | error e => exact ⟨[], by simp [chatLoop]⟩
    | ok r =>
      cases hc : r.choices with
      | nil => exact ⟨[], by simp [chatLoop, hc]⟩
      | cons choice cs =>
        by_cases ht : choice.toolCalls.isEmpty = true
        · exact ⟨[choice], by simp [chatLoop, hc, ht]⟩
        · obtain ⟨t, htl⟩ :=
            ih (msgs ++ [choice] ++ choice.toolCalls.map (toolResultMessage execT))
          refine ⟨[choice] ++ choice.toolCalls.map (toolResultMessage execT) ++ t, ?_⟩
          simp only [chatLoop, hc, ht, Bool.false_eq_true, if_false]
          simp only [List.singleton_append, List.cons_append, List.append_assoc] at htl ⊢
          exact htl

/-- C8: every reachable client history starts with the system message
installed at construction (Chat only appends, Reset only truncates back
to it), and after any Reset the history is exactly one message whose
role is system, regardless of how many turns preceded it. -/
theorem claim_C8_reset_invariant (c : Client) (h : Reachable c) :
    (∃ m rest, c.messages = m :: rest ∧ m.role = "system") ∧
    (∃ m, (Reset c).messages = [m] ∧ m.role = "system") := by
  have key : ∃ m rest, c.messages = m :: rest ∧ m.role = "system" := by
    induction h with
    | init prompt => exact ⟨systemMsg prompt, [], rfl, rfl⟩
    | chat c execT script user hc ih =>
      obtain ⟨m, rest, hm, hrole⟩ := ih
      obtain ⟨t, ht⟩ := chatLoop_messages_extend execT script (c.messages ++ [userMsg user])
      refine ⟨m, rest ++ [userMsg user] ++ t, ?_, hrole⟩
      simp only [Chat, hm]
      rw [hm] at ht
      simp only [List.singleton_append, List.cons_append, List.append_assoc] at ht ⊢
      exact ht
    | reset c hc ih =>
      obtain ⟨m, rest, hm, hrole⟩ := ih
      exact ⟨m, [], by simp [Reset, hm], hrole⟩
  obtain ⟨m, rest, hm, hrole⟩ := key
  exact ⟨⟨m, rest, hm, hrole⟩, ⟨m, by simp [Reset, hm], hrole⟩⟩

theorem claim_C8_reset_invariant_witness :
    ∃ m, (Reset ((Chat (fun _ _ => .ok "listing") [] (NewClient "instructions") "question").2)).messages =
      [m] ∧ m.role = "system" :=
  (claim_C8_reset_invariant _
    (Reachable.chat _ _ _ _ (Reachable.init "instructions"))).2

theorem mkdirAll_ok_files (fs : FS) (dir : String) (fs1 : FS)
    (h : mkdirAll fs dir = .ok fs1) : fs1.files = fs.files := by
  unfold mkdirAll at h
  split at h
  · simp at h
  · simp only [Except.ok.injEq] at h
    rw [← h]

theorem executeWriteMarkdown_error_keeps_files (cwd : String) (fs : FS) (args : Args) (e : String) :
    (executeWriteMarkdown cwd fs args).1 = .error e →
    ((executeWriteMarkdown cwd fs args).2).files = fs.files := by
  simp only [executeWriteMarkdown]
  repeat' split
  all_goals intro h
  all_goals try rfl
  · rename_i hpath hsuf hcon x2 clean hval hex x1 fs1 heqm x0 e0 heqw
    exact mkdirAll_ok_files _ _ _ heqm
  · simp at h

theorem executeWriteMarkdown_exists_error (cwd path clean : String) (fs : FS) (args : Args)
    (hpath : getString args "path" "" = path)
    (hne : path ≠ "")
    (hsuf : hasSuffixStr (strToLower path) ".md" = true)
    (hcon : getString args "content" "" ≠ "")
    (hval : validatePath cwd path = .ok clean)
    (hex : statExists fs clean = true) :
    executeWriteMarkdown cwd fs args = (.error ("file already exists: " ++ path), fs) := by
  simp only [executeWriteMarkdown, hpath]
  rw [if_neg hne, hsuf]
  simp only [Bool.not_true, Bool.false_eq_true, if_false]
  rw [if_neg hcon, hval]
  simp only [if_pos hex]

/-- C3: executeWriteMarkdown never partially writes: any error outcome
leaves the file store exactly as it was before the call; and a valid
markdown write whose validated target already exists fails with the
already-exists error and returns the store unchanged, preserving the
existing file's content. -/
theorem claim_C3_write_markdown_no_partial :
    (∀ (cwd : String) (fs : FS) (args : Args) (e : String),
      (executeWriteMarkdown cwd fs args).1 = .error e →
      ((executeWriteMarkdown cwd fs args).2).files = fs.files) ∧
    (∀ (cwd path clean : String) (fs : FS) (args : Args),
      getString args "path" "" = path →
      path ≠ "" →
      hasSuffixStr (strToLower path) ".md" = true →
      getString args "content" "" ≠ "" →
      validatePath cwd path = .ok clean →
      statExists fs clean = true →
      executeWriteMarkdown cwd fs args = (.error ("file already exists: " ++ path), fs)) :=
  ⟨executeWriteMarkdown_error_keeps_files,
   fun cwd path clean fs args hpath hne hsuf hcon hval hex =>
     executeWriteMarkdown_exists_error cwd path clean fs args hpath hne hsuf hcon hval hex⟩

theorem claim_C3_write_markdown_no_partial_witness :
    executeWriteMarkdown "/work" ⟨[("doc.md", "old content")], [], false, false⟩
      [("path", .str "doc.md"), ("content", .str "new")] =
      (.error "file already exists: doc.md", ⟨[("doc.md", "old content")], [], false, false⟩) ∧
    ((executeWriteMarkdown "/work" ⟨[], [], false, true⟩
      [("path", .str "x.md"), ("content", .str "y")]).2).files = [] := by
  constructor
  · exact claim_C3_write_markdown_no_partial.2 "/work" "doc.md" "doc.md" _ _
      rfl (by decide) (by decide) (by decide) rfl rfl
  · exact claim_C3_write_markdown_no_partial.1 "/work" _ _ "failed to write file: write failed" rfl

/-- C10: a grep call whose path is blocked but passes validation is
never rejected by the sensitive-path filter: ExecuteTool dispatches it
and the result is exactly the per-line-filtered output of the grep
process run over that path; the same blocked path makes cat and head
fail with the access-denied error before any execution. -/
theorem claim_C10_grep_no_path_block
    (env : ExecEnv) (patterns : List String) (cwd : String) (fs : FS)
    (p pat clean : String) (rec : Bool)
    (hp : p ≠ "") (hpat : pat ≠ "")
    (hblocked : IsPathBlocked patterns p = true)
    (hvalid : validatePath cwd p = .ok clean) :
    (ExecuteTool env patterns cwd fs "grep"
        [("pattern", .str pat), ("path", .str p), ("recursive", .bool rec)]).1 =
      (match runCommand env "grep"
          ((["-n", "--color=never"] ++ (if rec then ["-r"] else [])) ++ ["--", pat, p]) with
        | .error e => .error e
        | .ok result =>
          .ok (String.mk (joinChar '\n' (grepFilterLoop patterns (splitOnChar '\n' result.toList))))) ∧
    (ExecuteTool env patterns cwd fs "cat" [("path", .str p)]).1 =
      .error ("access denied: " ++ p ++ " is in ignore list") ∧
    (ExecuteTool env patterns cwd fs "head" [("path", .str p)]).1 =
      .error ("access denied: " ++ p ++ " is in ignore list") := by
  refine ⟨?_, ?_, ?_⟩
  · simp only [ExecuteTool, lookupArg, List.find?, executeToolDispatch, executeGrep,
      getString, getBool]
    simp [hpat, hp]
    rw [hvalid]
  · simp only [ExecuteTool, lookupArg, List.find?, executeToolDispatch, executeCat,
      getString]
    simp [hp, hblocked]
    rw [hvalid]
  · simp only [ExecuteTool, lookupArg, List.find?, executeToolDispatch, executeHead,
      getString]
    simp [hp, hblocked]
    rw [hvalid]

theorem claim_C10_grep_no_path_block_witness :
    (ExecuteTool (fun _ _ => ⟨"id_rsa:1:secret\nmain.go:3:ok", false, false, ""⟩)
      defaultBlockedPatterns "/work" ⟨[], [], false, false⟩ "grep"
      [("pattern", .str "secret"), ("path", .str "id_rsa"), ("recursive", .bool false)]).1 =
      .ok "main.go:3:ok" ∧
    (ExecuteTool (fun _ _ => ⟨"id_rsa:1:secret\nmain.go:3:ok", false, false, ""⟩)
      defaultBlockedPatterns "/work" ⟨[], [], false, false⟩ "cat"
      [("path", .str "id_rsa")]).1 =
      .error "access denied: id_rsa is in ignore list" := by
  have h := claim_C10_grep_no_path_block
    (fun _ _ => ⟨"id_rsa:1:secret\nmain.go:3:ok", false, false, ""⟩)
    defaultBlockedPatterns "/work" ⟨[], [], false, false⟩
    "id_rsa" "secret" "id_rsa" false (by decide) (by decide) (by decide) rfl
  exact ⟨by rw [h.1]; rfl, h.2.1⟩

theorem chatLoop_rounds (execT : String → String → Except String String)
    (rounds : List Message) (final : Message)
    (hr : ∀ r ∈ rounds, r.toolCalls ≠ []) (hf : final.toolCalls = []) :
    ∀ msgs : List Message,
      chatLoop execT (rounds.map (fun r => .ok ⟨[r]⟩) ++ [.ok ⟨[final]⟩]) msgs =
        (.ok (if final.content = "" ∧ final.reasoning ≠ "" then final.reasoning else final.content),
         msgs ++ (rounds.map (roundMessages execT)).flatten ++ [final]) := by
  induction rounds with
  | nil =>
    intro msgs
    simp [chatLoop, hf]
  | cons r rest ih =>
    intro msgs
    have hrr : r.toolCalls ≠ [] := hr r (List.mem_cons_self _ _)
    have hrest : ∀ x ∈ rest, x.toolCalls ≠ [] := fun x hx => hr x (List.mem_cons_of_mem _ hx)
    have hre : r.toolCalls.isEmpty = false := by
      simpa [List.isEmpty_iff] using hrr
    simp only [List.map_cons, List.cons_append, chatLoop, hre, Bool.false_eq_true, if_false,
      List.append_eq]
    rw [ih hrest (msgs ++ [r] ++ r.toolCalls.map (toolResultMessage execT))]
    simp [roundMessages, List.append_assoc]

/-- C4: one Chat call appends one user message plus, per tool round, the
assistant message and one tool-result message per call, each tool result
tagged with the originating call id; in particular a two-response script
whose first response carries exactly one tool call and whose second
carries none returns the second response's text, and the history is the
five messages system, user, assistant with the call, tool result,
assistant final. -/
theorem claim_C4_chat_rounds (execT : String → String → Except String String) :
    (∀ (c : Client) (user : String) (rounds : List Message) (final : Message),
      (∀ r ∈ rounds, r.toolCalls ≠ []) → final.toolCalls = [] →
      Chat execT (rounds.map (fun r => .ok ⟨[r]⟩) ++ [.ok ⟨[final]⟩]) c user =
        (.ok (if final.content = "" ∧ final.reasoning ≠ "" then final.reasoning else final.content),
         { messages := c.messages ++ [userMsg user] ++ (rounds.map (roundMessages execT)).flatten ++ [final] })) ∧
    (∀ (prompt user : String) (r1 final : Message) (tc : ToolCall),
      r1.toolCalls = [tc] → final.toolCalls = [] → final.content ≠ "" →
      (Chat execT [.ok ⟨[r1]⟩, .ok ⟨[final]⟩] (NewClient prompt) user).1 = .ok final.content ∧
      ((Chat execT [.ok ⟨[r1]⟩, .ok ⟨[final]⟩] (NewClient prompt) user).2).messages =
        [systemMsg prompt, userMsg user, r1, toolResultMessage execT tc, final] ∧
      ((Chat execT [.ok ⟨[r1]⟩, .ok ⟨[final]⟩] (NewClient prompt) user).2).messages.length = 5 ∧
      (toolResultMessage execT tc).role = "tool" ∧
      (toolResultMessage execT tc).toolCallID = tc.id) := by
  have main : ∀ (c : Client) (user : String) (rounds : List Message) (final : Message),
      (∀ r ∈ rounds, r.toolCalls ≠ []) → final.toolCalls = [] →
      Chat execT (rounds.map (fun r => .ok ⟨[r]⟩) ++ [.ok ⟨[final]⟩]) c user =
        (.ok (if final.content = "" ∧ final.reasoning ≠ "" then final.reasoning else final.content),
         { messages := c.messages ++ [userMsg user] ++ (rounds.map (roundMessages execT)).flatten ++ [final] }) := by
    intro c user rounds final hr hf
    simp only [Chat]
    rw [chatLoop_rounds execT rounds final hr hf (c.messages ++ [userMsg user])]
  refine ⟨main, ?_⟩
  intro prompt user r1 final tc h1 hf hc
  have h := main (NewClient prompt) user [r1] final
    (by
      intro r hrm
      rw [List.mem_singleton] at hrm
      rw [hrm, h1]
      simp) hf
  have hif : (if final.content = "" ∧ final.reasoning ≠ "" then final.reasoning else final.content) =
      final.content := by
    rw [if_neg]
    rintro ⟨hce, _⟩
    exact hc hce
  rw [hif] at h
  have hm : ((Chat execT [.ok ⟨[r1]⟩, .ok ⟨[final]⟩] (NewClient prompt) user).2).messages =
      [systemMsg prompt, userMsg user, r1, toolResultMessage execT tc, final] := by
    have h2 := congrArg (fun x => x.2.messages) h
    simpa [NewClient, roundMessages, h1] using h2
  have hres : (Chat execT [.ok ⟨[r1]⟩, .ok ⟨[final]⟩] (NewClient prompt) user).1 = .ok final.content := by
    have h3 := congrArg (fun x => x.1) h
    simpa using h3
  exact ⟨hres, hm, by rw [hm]; rfl, rfl, rfl⟩

theorem claim_C4_chat_rounds_witness :
    (Chat (fun _ _ => .ok "file listing")
      [.ok ⟨[{ role := "assistant", content := "", toolCalls := [⟨"call-1", "function", "ls", ""⟩], toolCallID := "", reasoning := "" }]⟩,
       .ok ⟨[{ role := "assistant", content := "answer", toolCalls := [], toolCallID := "", reasoning := "" }]⟩]
      (NewClient "sys") "question").1 = .ok "answer" ∧
    ((Chat (fun _ _ => .ok "file listing")
      [.ok ⟨[{ role := "assistant", content := "", toolCalls := [⟨"call-1", "function", "ls", ""⟩], toolCallID := "", reasoning := "" }]⟩,
       .ok ⟨[{ role := "assistant", content := "answer", toolCalls := [], toolCallID := "", reasoning := "" }]⟩]
      (NewClient "sys") "question").2).messages.map (fun m => m.role) =
      ["system", "user", "assistant", "tool", "assistant"] ∧
    ((Chat (fun _ _ => .ok "file listing")
      [.ok ⟨[{ role := "assistant", content := "", toolCalls := [⟨"call-1", "function", "ls", ""⟩], toolCallID := "", reasoning := "" }]⟩,
       .ok ⟨[{ role := "assistant", content := "answer", toolCalls := [], toolCallID := "", reasoning := "" }]⟩]
      (NewClient "sys") "question").2).messages.length = 5 := by
  have h := (claim_C4_chat_rounds (fun _ _ => .ok "file listing")).2 "sys" "question"
    { role := "assistant", content := "", toolCalls := [⟨"call-1", "function", "ls", ""⟩], toolCallID := "", reasoning := "" }
    { role := "assistant", content := "answer", toolCalls := [], toolCallID := "", reasoning := "" }
    ⟨"call-1", "function", "ls", ""⟩
    rfl rfl (by decide)
  exact ⟨h.1, by rw [h.2.1]; rfl, h.2.2.1⟩

theorem normalizeNewlines_no_cr (cs : List Char) : '\r' ∉ normalizeNewlines cs := by
  induction cs with
  | nil => simp [normalizeNewlines]
  | cons c rest ih =>
    by_cases hc : c = '\r'
    · subst hc
      cases rest with
      | nil => simp [normalizeNewlines]
      | cons c2 rest2 =>
        by_cases h2 : c2 = '\n'
        · subst h2
          have hr : normalizeNewlines ('\n' :: rest2) = '\n' :: normalizeNewlines rest2 := by
            simp [normalizeNewlines]
          rw [hr] at ih
          simp only [List.mem_cons] at ih
          push_neg at ih
          have hstep : normalizeNewlines ('\r' :: '\n' :: rest2) = '\n' :: normalizeNewlines rest2 := by
            simp [normalizeNewlines]
          rw [hstep]
          simp only [List.mem_cons]
          push_neg
          exact ⟨by decide, ih.2⟩
        · have hstep : normalizeNewlines ('\r' :: c2 :: rest2) =
              '\n' :: normalizeNewlines (c2 :: rest2) := by
            simp [normalizeNewlines, h2]
          rw [hstep]
          simp only [List.mem_cons]
          push_neg
          exact ⟨by decide, ih⟩
    · have hstep : normalizeNewlines (c :: rest) = c :: normalizeNewlines rest := by
        simp [normalizeNewlines, hc]
      rw [hstep]
      simp only [List.mem_cons]
      push_neg
      exact ⟨fun he => hc he.symm, ih⟩

theorem splitOnChar_ne_nil (sep : Char) (cs : List Char) : splitOnChar sep cs ≠ [] := by
  cases cs with
  | nil => simp [splitOnChar]
  | cons c rest =>
    by_cases h : c = sep
    · simp [splitOnChar, h]
    · simp only [splitOnChar, if_neg h]
      split <;> simp

theorem splitOnChar_sep_not_mem (sep : Char) (cs : List Char) :
    ∀ l ∈ splitOnChar sep cs, sep ∉ l := by
  induction cs with
  | nil =>
    intro l hl
    simp [splitOnChar] at hl
    subst hl
    simp
  | cons c rest ih =>
    intro l hl
    by_cases h : c = sep
    · simp only [splitOnChar, if_pos h] at hl
      rcases List.mem_cons.mp hl with h1 | h1
      · subst h1; simp
      · exact ih l h1
    · rcases hsp : splitOnChar sep rest with _ | ⟨l0, ls⟩
      · exact absurd hsp (splitOnChar_ne_nil sep rest)
      · simp only [splitOnChar, if_neg h, hsp] at hl
        rcases List.mem_cons.mp hl with h1 | h1
        · subst h1
          intro hm
          rcases List.mem_cons.mp hm with h2 | h2
          · exact h h2.symm
          · exact ih l0 (by rw [hsp]; exact List.mem_cons_self _ _) h2
        · exact ih l (by rw [hsp]; exact List.mem_cons_of_mem _ h1)

theorem mem_dropWhile_mem {α : Type} (p : α → Bool) (l : List α) :
    ∀ x ∈ l.dropWhile p, x ∈ l := by
  induction l with
  | nil => simp
  | cons a l ih =>
    intro x hx
    rw [List.dropWhile_cons] at hx
    by_cases h : p a = true
    · rw [if_pos h] at hx
      exact List.mem_cons_of_mem _ (ih x hx)
    · rw [if_neg h] at hx
      exact hx

theorem head?_dropWhile_false {α : Type} (p : α → Bool) (l : List α) :
    ∀ x, (l.dropWhile p).head? = some x → p x = false := by
  induction l with
  | nil =>
    intro x hx
    simp at hx
  | cons a l ih =>
    intro x hx
    rw [List.dropWhile_cons] at hx
    by_cases h : p a = true
    · rw [if_pos h] at hx
      exact ih x hx
    · rw [if_neg h] at hx
      simp only [List.head?_cons, Option.some.injEq] at hx
      subst hx
      simpa using h

theorem dropWhile_dropWhile_self {α : Type} (p : α → Bool) (l : List α) :
    (l.dropWhile p).dropWhile p = l.dropWhile p := by
  induction l with
  | nil => rfl
  | cons a l ih =>
    rw [List.dropWhile_cons]
    by_cases h : p a = true
    · rw [if_pos h]
      exact ih
    · rw [if_neg h, List.dropWhile_cons, if_neg h]

theorem trimRightIn_subset (cutset : List Char) (cs : List Char) :
    ∀ x ∈ trimRightIn cutset cs, x ∈ cs := by
  intro x hx
  unfold trimRightIn at hx
  rw [List.mem_reverse] at hx
  have := mem_dropWhile_mem _ _ x hx
  rwa [List.mem_reverse] at this

theorem trimRightIn_idem (cutset : List Char) (cs : List Char) :
    trimRightIn cutset (trimRightIn cutset cs) = trimRightIn cutset cs := by
  unfold trimRightIn
  rw [List.reverse_reverse, dropWhile_dropWhile_self]

theorem trimRightIn_getLast (cutset : List Char) (cs : List Char) :
    ∀ c, (trimRightIn cutset cs).getLast? = some c → cutset.contains c = false := by
  intro c hc
  unfold trimRightIn at hc
  rw [List.getLast?_reverse] at hc
  exact head?_dropWhile_false _ _ c hc

theorem trimRightIn_eq_self (cutset : List Char) (cs : List Char)
    (h : ∀ c, cs.getLast? = some c → cutset.contains c = false) :
    trimRightIn cutset cs = cs := by
  unfold trimRightIn
  cases hr : cs.reverse with
  | nil =>
    have hnil : cs = [] := by simpa using congrArg List.reverse hr
    simp [hnil]
  | cons a t =>
    have ha : cs.getLast? = some a := by
      have hg := List.getLast?_reverse cs.reverse
      rw [List.reverse_reverse] at hg
      rw [hg, hr]
      rfl
    have hca := h a ha
    calc (List.dropWhile (fun c => cutset.contains c) (a :: t)).reverse
        = (a :: t).reverse := by rw [List.dropWhile_cons, if_neg (by simpa using hca)]
      _ = cs.reverse.reverse := by rw [hr]
      _ = cs := List.reverse_reverse cs

theorem dropWhile_replicate_append {α : Type} (p : α → Bool) (a : α) (hp : p a = true)
    (n : Nat) (l : List α) :
    (List.replicate n a ++ l).dropWhile p = l.dropWhile p := by
  induction n with
  | zero => simp
  | succ n ih =>
    rw [List.replicate_succ, List.cons_append, List.dropWhile_cons, if_pos hp]
    exact ih

theorem trimRightIn_append_replicate (a : Char) (n : Nat) (x : List Char) :
    trimRightIn [a] (x ++ List.replicate n a) = trimRightIn [a] x := by
  unfold trimRightIn
  rw [List.reverse_append, List.reverse_replicate,
    dropWhile_replicate_append _ a (by simp) n x.reverse]

theorem trimRightIn_replicate (a : Char) (n : Nat) :
    trimRightIn [a] (List.replicate n a) = [] := by
  have h := trimRightIn_append_replicate a n []
  rw [List.nil_append] at h
  rw [h]
  simp [trimRightIn]

theorem splitOnChar_no_sep (sep : Char) (l : List Char) (h : sep ∉ l) :
    splitOnChar sep l = [l] := by
  induction l with
  | nil => rfl
  | cons c rest ih =>
    have hc : ¬ c = sep := by
      intro he
      subst he
      exact h (List.mem_cons_self _ _)
    have hrest : sep ∉ rest := fun hm => h (List.mem_cons_of_mem _ hm)
    simp only [splitOnChar, if_neg hc, ih hrest]

theorem splitOnChar_append_sep (sep : Char) (l t : List Char) (h : sep ∉ l) :
    splitOnChar sep (l ++ sep :: t) = l :: splitOnChar sep t := by
  induction l with
  | nil => simp [splitOnChar]
  | cons c rest ih =>
    have hc : ¬ c = sep := by
      intro he
      subst he
      exact h (List.mem_cons_self _ _)
    have hrest : sep ∉ rest := fun hm => h (List.mem_cons_of_mem _ hm)
    simp only [List.cons_append, splitOnChar, List.append_eq, if_neg hc, ih hrest]

theorem joinChar_cons (sep : Char) (l : List Char) (ls : List (List Char)) (h : ls ≠ []) :
    joinChar sep (l :: ls) = l ++ sep :: joinChar sep ls := by
  cases ls with
  | nil => exact absurd rfl h
  | cons a t => rfl

theorem splitOnChar_joinChar (sep : Char) (ls : List (List Char)) :
    ls ≠ [] → (∀ l ∈ ls, sep ∉ l) →
    splitOnChar sep (joinChar sep ls) = ls := by
  induction ls with
  | nil =>
    intro hne _
    exact absurd rfl hne
  | cons l ls ih =>
    intro _ h
    cases ls with
    | nil =>
      simp only [joinChar]
      exact splitOnChar_no_sep sep l (h l (List.mem_cons_self _ _))
    | cons l2 ls2 =>
      rw [joinChar_cons sep l (l2 :: ls2) (by simp)]
      rw [splitOnChar_append_sep sep l _ (h l (List.mem_cons_self _ _))]
      rw [ih (by simp) (fun x hx => h x (List.mem_cons_of_mem _ hx))]

theorem joinChar_mem (sep : Char) (ls : List (List Char)) :
    ∀ c ∈ joinChar sep ls, c = sep ∨ ∃ l ∈ ls, c ∈ l := by
  induction ls with
  | nil => simp [joinChar]
  | cons l ls ih =>
    intro c hc
    cases ls with
    | nil =>
      simp only [joinChar] at hc
      exact Or.inr ⟨l, List.mem_cons_self _ _, hc⟩
    | cons l2 ls2 =>
      rw [joinChar_cons sep l _ (by simp)] at hc
      rcases List.mem_append.mp hc with h1 | h1
      · exact Or.inr ⟨l, List.mem_cons_self _ _, h1⟩
      · rcases List.mem_cons.mp h1 with h2 | h2
        · exact Or.inl h2
        · rcases ih c h2 with h3 | ⟨l0, hl0, hcl⟩
          · exact Or.inl h3
          · exact Or.inr ⟨l0, List.mem_cons_of_mem _ hl0, hcl⟩

theorem joinChar_replicate_nil (sep : Char) (n : Nat) :
    joinChar sep (List.replicate (n + 1) ([] : List Char)) = List.replicate n sep := by
  induction n with
  | zero => rfl
  | succ n ih =>
    rw [List.replicate_succ (n := n + 1)]
    rw [joinChar_cons sep [] _ (by rw [List.replicate_succ]; simp), ih]
    simp [List.replicate_succ]

theorem joinChar_append_replicate (sep : Char) (A : List (List Char)) (n : Nat) :
    A ≠ [] →
    joinChar sep (A ++ List.replicate n ([] : List Char)) =
      joinChar sep A ++ List.replicate n sep := by
  induction A with
  | nil =>
    intro hA
    exact absurd rfl hA
  | cons a A ih =>
    intro _
    cases A with
    | nil =>
      cases n with
      | zero => simp [joinChar]
      | succ m =>
        rw [List.singleton_append, joinChar_cons sep a _ (by rw [List.replicate_succ]; simp),
          joinChar_replicate_nil]
        simp [joinChar, List.replicate_succ]
    | cons a2 A2 =>
      rw [List.cons_append, joinChar_cons sep a _ (by simp),
        joinChar_cons sep a (a2 :: A2) (by simp), ih (by simp)]
      simp [List.append_assoc]

theorem joinChar_ne_nil_of_getLast (sep : Char) (ls : List (List Char)) (t : List Char)
    (hl : ls.getLast? = some t) (ht : t ≠ []) : joinChar sep ls ≠ [] := by
  induction ls with
  | nil => simp at hl
  | cons a ls ih =>
    cases ls with
    | nil =>
      simp at hl
      subst hl
      simpa [joinChar] using ht
    | cons a2 ls2 =>
      rw [joinChar_cons sep a _ (by simp)]
      simp

theorem getLast?_append_right {α : Type} (x y : List α) (hy : y ≠ []) :
    (x ++ y).getLast? = y.getLast? := by
  rw [List.getLast?_append]
  cases y with
  | nil => exact absurd rfl hy
  | cons b bs =>
    obtain ⟨v, hv⟩ : ∃ v, (b :: bs).getLast? = some v :=
      ⟨(b :: bs).getLast (by simp), List.getLast?_eq_getLast _ _⟩
    rw [hv]
    rfl

theorem joinChar_getLast (sep : Char) (ls : List (List Char)) (t : List Char) :
    ls.getLast? = some t → t ≠ [] →
    (joinChar sep ls).getLast? = t.getLast? := by
  induction ls with
  | nil =>
    intro hl _
    simp at hl
  | cons a ls ih =>
    intro hl ht
    cases ls with
    | nil =>
      simp at hl
      subst hl
      rfl
    | cons a2 ls2 =>
      have hl2 : (a2 :: ls2).getLast? = some t := by
        rw [← hl]
        exact (List.getLast?_cons_cons).symm
      have hj := ih hl2
      have hjne : joinChar sep (a2 :: ls2) ≠ [] :=
        joinChar_ne_nil_of_getLast sep (a2 :: ls2) t hl2 ht
      rw [joinChar_cons sep a _ (by simp)]
      rw [getLast?_append_right a _ (by simp)]
      cases hJ : joinChar sep (a2 :: ls2) with
      | nil => exact absurd hJ hjne
      | cons j js =>
        have hj' := hj ht
        rw [hJ] at hj'
        rw [show ((sep :: j :: js).getLast? : Option Char) = (j :: js).getLast? from
          List.getLast?_cons_cons]
        exact hj'

theorem fmLoop_mem (lines : List (List Char)) :
    ∀ (k : Nat) (l : List Char), l ∈ fmLoop lines k →
      l = [] ∨ ∃ l0 ∈ lines, l = trimRightIn [' ', '\t'] l0 := by
  induction lines with
  | nil =>
    intro k l hl
    simp [fmLoop] at hl
  | cons line rest ih =>
    intro k l hl
    by_cases htr : trimRightIn [' ', '\t'] line = []
    · rw [show fmLoop (line :: rest) k =
          (if k + 1 ≤ 2 then ([] : List Char) :: fmLoop rest (k + 1) else fmLoop rest (k + 1)) by
            simp [fmLoop, htr]] at hl
      by_cases hk : k + 1 ≤ 2
      · rw [if_pos hk] at hl
        rcases List.mem_cons.mp hl with h1 | h1
        · exact Or.inl h1
        · rcases ih (k + 1) l h1 with h2 | ⟨l0, hl0, he⟩
          · exact Or.inl h2
          · exact Or.inr ⟨l0, List.mem_cons_of_mem _ hl0, he⟩
      · rw [if_neg hk] at hl
        rcases ih (k + 1) l hl with h2 | ⟨l0, hl0, he⟩
        · exact Or.inl h2
        · exact Or.inr ⟨l0, List.mem_cons_of_mem _ hl0, he⟩
    · rw [show fmLoop (line :: rest) k =
          trimRightIn [' ', '\t'] line :: fmLoop rest 0 by simp [fmLoop, htr]] at hl
      rcases List.mem_cons.mp hl with h1 | h1
      · exact Or.inr ⟨line, List.mem_cons_self _ _, h1⟩
      · rcases ih 0 l h1 with h2 | ⟨l0, hl0, he⟩
        · exact Or.inl h2
        · exact Or.inr ⟨l0, List.mem_cons_of_mem _ hl0, he⟩

theorem fmLoop_ne_nil (line : List Char) (rest : List (List Char)) :
    fmLoop (line :: rest) 0 ≠ [] := by
  by_cases htr : trimRightIn [' ', '\t'] line = []
  · rw [show fmLoop (line :: rest) 0 = ([] : List Char) :: fmLoop rest 1 by simp [fmLoop, htr]]
    simp
  · rw [show fmLoop (line :: rest) 0 = trimRightIn [' ', '\t'] line :: fmLoop rest 0 by
      simp [fmLoop, htr]]
    simp

theorem hasThreeBlanksAux_fmLoop (lines : List (List Char)) :
    ∀ k, hasThreeBlanksAux (min k 2) (fmLoop lines k) = false := by
  induction lines with
  | nil =>
    intro k
    simp [fmLoop, hasThreeBlanksAux]
  | cons line rest ih =>
    intro k
    by_cases htr : trimRightIn [' ', '\t'] line = []
    · by_cases hk : k + 1 ≤ 2
      · rw [show fmLoop (line :: rest) k = ([] : List Char) :: fmLoop rest (k + 1) by
          simp [fmLoop, htr, hk]]
        rw [show hasThreeBlanksAux (min k 2) (([] : List Char) :: fmLoop rest (k + 1)) =
            if min k 2 + 1 ≥ 3 then true
            else hasThreeBlanksAux (min k 2 + 1) (fmLoop rest (k + 1)) by
          simp [hasThreeBlanksAux]]
        rw [if_neg (by omega)]
        rw [show min k 2 + 1 = min (k + 1) 2 by omega]
        exact ih (k + 1)
      · rw [show fmLoop (line :: rest) k = fmLoop rest (k + 1) by simp [fmLoop, htr, hk]]
        rw [show min k 2 = min (k + 1) 2 by omega]
        exact ih (k + 1)
    · rw [show fmLoop (line :: rest) k = trimRightIn [' ', '\t'] line :: fmLoop rest 0 by
        simp [fmLoop, htr]]
      rw [show hasThreeBlanksAux (min k 2) (trimRightIn [' ', '\t'] line :: fmLoop rest 0) =
          hasThreeBlanksAux 0 (fmLoop rest 0) by simp [hasThreeBlanksAux, htr]]
      simpa using ih 0

theorem hasThreeBlanksAux_of_append (xs : List (List Char)) :
    ∀ (ys : List (List Char)) (r : Nat),
      hasThreeBlanksAux r (xs ++ ys) = false → hasThreeBlanksAux r xs = false := by
  induction xs with
  | nil =>
    intro ys r _
    rfl
  | cons x xs ih =>
    intro ys r h
    rw [List.cons_append] at h
    by_cases hx : x = []
    · subst hx
      rw [show hasThreeBlanksAux r (([] : List Char) :: (xs ++ ys)) =
          if r + 1 ≥ 3 then true else hasThreeBlanksAux (r + 1) (xs ++ ys) by
        simp [hasThreeBlanksAux]] at h
      by_cases hr : r + 1 ≥ 3
      · rw [if_pos hr] at h
        exact absurd h (by simp)
      · rw [if_neg hr] at h
        rw [show hasThreeBlanksAux r (([] : List Char) :: xs) =
            if r + 1 ≥ 3 then true else hasThreeBlanksAux (r + 1) xs by simp [hasThreeBlanksAux]]
        rw [if_neg hr]
        exact ih ys (r + 1) h
    · rw [show hasThreeBlanksAux r (x :: (xs ++ ys)) = hasThreeBlanksAux 0 (xs ++ ys) by
        simp [hasThreeBlanksAux, hx]] at h
      rw [show hasThreeBlanksAux r (x :: xs) = hasThreeBlanksAux 0 xs by
        simp [hasThreeBlanksAux, hx]]
      exact ih ys 0 h

theorem hasThreeBlanksAux_append_blank (G : List (List Char)) :
    ∀ r, G ≠ [] → (∀ t, G.getLast? = some t → t ≠ []) →
      hasThreeBlanksAux r G = false →
      hasThreeBlanksAux r (G ++ [([] : List Char)]) = false := by
  induction G with
  | nil =>
    intro r hne _ _
    exact absurd rfl hne
  | cons a G ih =>
    intro r _ hlast h
    cases G with
    | nil =>
      have ha : a ≠ [] := hlast a (by simp)
      rw [show ([a] ++ [([] : List Char)]) = [a, ([] : List Char)] from rfl]
      rw [show hasThreeBlanksAux r [a, ([] : List Char)] =
          hasThreeBlanksAux 0 [([] : List Char)] by simp [hasThreeBlanksAux, ha]]
      simp [hasThreeBlanksAux]
    | cons a2 G2 =>
      have hlast2 : ∀ t, (a2 :: G2).getLast? = some t → t ≠ [] := by
        intro t ht
        exact hlast t (by rw [List.getLast?_cons_cons]; exact ht)
      by_cases ha : a = []
      · subst ha
        rw [show hasThreeBlanksAux r (([] : List Char) :: (a2 :: G2)) =
            if r + 1 ≥ 3 then true else hasThreeBlanksAux (r + 1) (a2 :: G2) by
          simp [hasThreeBlanksAux]] at h
        by_cases hr : r + 1 ≥ 3
        · rw [if_pos hr] at h
          exact absurd h (by simp)
        · rw [if_neg hr] at h
          rw [List.cons_append]
          rw [show hasThreeBlanksAux r (([] : List Char) :: ((a2 :: G2) ++ [([] : List Char)])) =
              if r + 1 ≥ 3 then true
              else hasThreeBlanksAux (r + 1) ((a2 :: G2) ++ [([] : List Char)]) by
            simp [hasThreeBlanksAux]]
          rw [if_neg hr]
          exact ih (r + 1) (by simp) hlast2 h
      · rw [show hasThreeBlanksAux r (a :: (a2 :: G2)) = hasThreeBlanksAux 0 (a2 :: G2) by
          simp [hasThreeBlanksAux, ha]] at h
        rw [List.cons_append]
        rw [show hasThreeBlanksAux r (a :: ((a2 :: G2) ++ [([] : List Char)])) =
            hasThreeBlanksAux 0 ((a2 :: G2) ++ [([] : List Char)]) by
          simp [hasThreeBlanksAux, ha]]
        exact ih 0 (by simp) hlast2 h

theorem dropTrailingBlanks_decomp (ls : List (List Char)) :
    ∃ n, ls = dropTrailingBlanks ls ++ List.replicate n ([] : List Char) := by
  have hrep : ∃ n, (ls.reverse.takeWhile (fun l => l.isEmpty)).reverse =
      List.replicate n ([] : List Char) := by
    refine ⟨(ls.reverse.takeWhile (fun l => l.isEmpty)).reverse.length, ?_⟩
    rw [List.eq_replicate_iff]
    refine ⟨rfl, fun b hb => ?_⟩
    rw [List.mem_reverse] at hb
    have hbt := List.mem_takeWhile_imp hb
    rwa [List.isEmpty_iff] at hbt
  obtain ⟨n, hn⟩ := hrep
  refine ⟨n, ?_⟩
  conv_lhs => rw [← List.reverse_reverse ls,
    ← List.takeWhile_append_dropWhile (fun l : List Char => l.isEmpty) ls.reverse]
  rw [List.reverse_append, hn]
  rfl

theorem dropTrailingBlanks_getLast (ls : List (List Char)) :
    ∀ t, (dropTrailingBlanks ls).getLast? = some t → t ≠ [] := by
  intro t ht
  unfold dropTrailingBlanks at ht
  rw [List.getLast?_reverse] at ht
  have hf := head?_dropWhile_false (fun l => l.isEmpty) ls.reverse t ht
  intro he
  subst he
  simp at hf

theorem dropTrailingBlanks_subset (ls : List (List Char)) :
    ∀ l ∈ dropTrailingBlanks ls, l ∈ ls := by
  intro l hl
  unfold dropTrailingBlanks at hl
  rw [List.mem_reverse] at hl
  have hm := mem_dropWhile_mem _ _ l hl
  rwa [List.mem_reverse] at hm

theorem splitOnChar_mem_subset (sep : Char) (cs : List Char) :
    ∀ l ∈ splitOnChar sep cs, ∀ c ∈ l, c ∈ cs := by
  induction cs with
  | nil =>
    intro l hl c hc
    simp [splitOnChar] at hl
    subst hl
    simp at hc
  | cons a rest ih =>
    intro l hl c hc
    by_cases h : a = sep
    · simp only [splitOnChar, if_pos h] at hl
      rcases List.mem_cons.mp hl with h1 | h1
      · subst h1; simp at hc
      · exact List.mem_cons_of_mem _ (ih l h1 c hc)
    · rcases hsp : splitOnChar sep rest with _ | ⟨l0, ls⟩
      · exact absurd hsp (splitOnChar_ne_nil sep rest)
      · simp only [splitOnChar, if_neg h, hsp] at hl
        rcases List.mem_cons.mp hl with h1 | h1
        · subst h1
          rcases List.mem_cons.mp hc with h2 | h2
          · subst h2; exact List.mem_cons_self _ _
          · refine List.mem_cons_of_mem _ (ih l0 ?_ c h2)
            rw [hsp]
            exact List.mem_cons_self _ _
        · refine List.mem_cons_of_mem _ (ih l ?_ c hc)
          rw [hsp]
          exact List.mem_cons_of_mem _ h1

theorem formatMarkdown_chars (content : String) :
    (formatMarkdown content).toList =
      trimRightIn ['\n']
        (joinChar '\n' (fmLoop (splitOnChar '\n' (normalizeNewlines content.toList)) 0)) ++ ['\n'] :=
  rfl

theorem formatMarkdown_cases (content : String) :
    (formatMarkdown content).toList = ['\n'] ∨
    (dropTrailingBlanks (fmLoop (splitOnChar '\n' (normalizeNewlines content.toList)) 0) ≠ [] ∧
     (formatMarkdown content).toList =
       joinChar '\n'
         (dropTrailingBlanks (fmLoop (splitOnChar '\n' (normalizeNewlines content.toList)) 0)) ++
         ['\n'] ∧
     splitOnChar '\n' ((formatMarkdown content).toList) =
       dropTrailingBlanks (fmLoop (splitOnChar '\n' (normalizeNewlines content.toList)) 0) ++
         [([] : List Char)]) := by
  set ncs := normalizeNewlines content.toList with hncs
  set lines := splitOnChar '\n' ncs with hlines
  set F := fmLoop lines 0 with hF
  set G := dropTrailingBlanks F with hG
  obtain ⟨n, hdecomp⟩ := dropTrailingBlanks_decomp F
  rw [← hG] at hdecomp
  have hFne : F ≠ [] := by
    rcases hlc : lines with _ | ⟨l0, rest⟩
    · rw [hlines] at hlc
      exact absurd hlc (splitOnChar_ne_nil _ _)
    · rw [hF, hlc]
      exact fmLoop_ne_nil l0 rest
  have hFnl : ∀ l ∈ F, ('\n' : Char) ∉ l := by
    intro l hl
    rcases fmLoop_mem lines 0 l (by rw [← hF]; exact hl) with h1 | ⟨l0, hl0, he⟩
    · subst h1
      simp
    · subst he
      intro hm
      have hml0 := trimRightIn_subset _ _ _ hm
      exact splitOnChar_sep_not_mem '\n' ncs l0 (by rw [← hlines]; exact hl0) hml0
  by_cases hGe : G = []
  · left
    rw [hGe, List.nil_append] at hdecomp
    have hn1 : n ≠ 0 := by
      intro h0
      rw [h0] at hdecomp
      exact hFne (by simpa using hdecomp)
    obtain ⟨m, rfl⟩ : ∃ m, n = m + 1 := ⟨n - 1, by omega⟩
    rw [formatMarkdown_chars content, ← hncs, ← hlines, ← hF, hdecomp,
      joinChar_replicate_nil, trimRightIn_replicate]
    rfl
  · right
    have hGlast : ∀ t, G.getLast? = some t → t ≠ [] := by
      rw [hG]
      exact dropTrailingBlanks_getLast F
    have hjoin : joinChar '\n' F = joinChar '\n' G ++ List.replicate n '\n' := by
      conv_lhs => rw [hdecomp]
      exact joinChar_append_replicate '\n' G n hGe
    obtain ⟨t, ht⟩ : ∃ t, G.getLast? = some t := by
      cases hGc : G with
      | nil => exact absurd hGc hGe
      | cons g gs => exact ⟨(g :: gs).getLast (by simp), List.getLast?_eq_getLast _ _⟩
    have htne : t ≠ [] := hGlast t ht
    have htG : t ∈ G := by
      cases hGc : G with
      | nil => exact absurd hGc hGe
      | cons g gs =>
        rw [hGc] at ht
        have hgl := List.getLast?_eq_getLast (g :: gs) (by simp)
        rw [hgl] at ht
        simp only [Option.some.injEq] at ht
        rw [← ht]
        exact List.getLast_mem _
  
    have hGnl : ∀ l ∈ G, ('\n' : Char) ∉ l := by
      intro l hl
      refine hFnl l ?_
      rw [hG] at hl
      exact dropTrailingBlanks_subset F l hl
    have htrim : trimRightIn ['\n'] (joinChar '\n' G) = joinChar '\n' G := by
      apply trimRightIn_eq_self
      intro c hc
      rw [joinChar_getLast '\n' G t ht htne] at hc
      have hct : c ∈ t := by
        cases t with
        | nil => exact absurd rfl htne
        | cons x xs =>
          have hgl := List.getLast?_eq_getLast (x :: xs) (by simp)
          rw [hgl] at hc
          simp only [Option.some.injEq] at hc
          rw [← hc]
          exact List.getLast_mem _
      have hcne : c ≠ '\n' := by
        intro he
        subst he
        exact hGnl t htG hct
      simpa using hcne
    have hout : (formatMarkdown content).toList = joinChar '\n' G ++ ['\n'] := by
      rw [formatMarkdown_chars content, ← hncs, ← hlines, ← hF, hjoin,
        trimRightIn_append_replicate, htrim]
    have hjoin1 : joinChar '\n' G ++ ['\n'] = joinChar '\n' (G ++ [([] : List Char)]) := by
      rw [show (G ++ [([] : List Char)]) = G ++ List.replicate 1 ([] : List Char) from rfl,
        joinChar_append_replicate '\n' G 1 hGe]
      rfl
    have hsplit : splitOnChar '\n' (joinChar '\n' G ++ ['\n']) = G ++ [([] : List Char)] := by
      rw [hjoin1]
      apply splitOnChar_joinChar
      · simp
      · intro l hl
        rcases List.mem_append.mp hl with h1 | h1
        · exact hGnl l h1
        · simp at h1
          subst h1
          simp
    refine ⟨hGe, hout, ?_⟩
    rw [hout]
    exact hsplit

/-- C7: formatMarkdown leaves no carriage return in its output (line
endings are normalized to linefeeds), every output line is free of
trailing spaces and tabs, the output never contains three consecutive
blank lines (runs of more than two blanks are reduced), the output ends
with exactly one trailing newline, and the claim's concrete input
collapses its blank-line runs to exactly two with a single final
newline. -/
theorem claim_C7_formatMarkdown (content : String) :
    (('\r' : Char) ∉ (formatMarkdown content).toList) ∧
    (∀ l ∈ splitOnChar '\n' (formatMarkdown content).toList, trimRightIn [' ', '\t'] l = l) ∧
    hasThreeBlanksAux 0 (splitOnChar '\n' (formatMarkdown content).toList) = false ∧
    (∃ t, (formatMarkdown content).toList = t ++ ['\n'] ∧
      ∀ c, t.getLast? = some c → c ≠ '\n') ∧
    formatMarkdown "# Title\n\n\n\n\nBody\n\n\n\nTail" = "# Title\n\n\nBody\n\n\nTail\n" ∧
    formatMarkdown "A  \r\nB\t\rC" = "A\nB\nC\n" := by
  refine ⟨?_, ?_, ?_, ?_, by decide, by decide⟩
  · rw [formatMarkdown_chars content]
    intro hm
    rcases List.mem_append.mp hm with h1 | h1
    · have h2 := trimRightIn_subset _ _ _ h1
      rcases joinChar_mem '\n' _ '\r' h2 with h3 | ⟨l, hl, hcl⟩
      · exact absurd h3 (by decide)
      · rcases fmLoop_mem _ 0 l hl with h4 | ⟨l0, hl0, he⟩
        · subst h4
          simp at hcl
        · subst he
          have h5 := trimRightIn_subset _ _ _ hcl
          have h6 := splitOnChar_mem_subset '\n' _ l0 hl0 '\r' h5
          exact normalizeNewlines_no_cr content.toList h6
    · simp at h1
  · rcases formatMarkdown_cases content with hc | ⟨hGne, hout, hsp⟩
    · rw [hc]
      intro l hl
      rw [show splitOnChar '\n' ['\n'] = [([] : List Char), []] from rfl] at hl
      rcases List.mem_cons.mp hl with h1 | h1
      · subst h1
        rfl
      · simp at h1
        subst h1
        rfl
    · rw [hsp]
      intro l hl
      rcases List.mem_append.mp hl with h1 | h1
      · have h2 := dropTrailingBlanks_subset _ l h1
        rcases fmLoop_mem _ 0 l h2 with h3 | ⟨l0, hl0, he⟩
        · subst h3
          rfl
        · subst he
          exact trimRightIn_idem _ _
      · simp at h1
        subst h1
        rfl
  · rcases formatMarkdown_cases content with hc | ⟨hGne, hout, hsp⟩
    · rw [hc]
      decide
    · rw [hsp]
      have hF0 := hasThreeBlanksAux_fmLoop (splitOnChar '\n' (normalizeNewlines content.toList)) 0
      rw [show min 0 2 = 0 from rfl] at hF0
      obtain ⟨n, hd⟩ :=
        dropTrailingBlanks_decomp (fmLoop (splitOnChar '\n' (normalizeNewlines content.toList)) 0)
      have hpre : hasThreeBlanksAux 0
          (dropTrailingBlanks (fmLoop (splitOnChar '\n' (normalizeNewlines content.toList)) 0)) =
          false := by
        apply hasThreeBlanksAux_of_append _ (List.replicate n ([] : List Char)) 0
        rw [← hd]
        exact hF0
      exact hasThreeBlanksAux_append_blank _ 0 hGne (dropTrailingBlanks_getLast _) hpre
  · refine ⟨trimRightIn ['\n']
      (joinChar '\n' (fmLoop (splitOnChar '\n' (normalizeNewlines content.toList)) 0)),
      formatMarkdown_chars content, ?_⟩
    intro c hc
    have hnc := trimRightIn_getLast ['\n'] _ c hc
    intro he
    subst he
    simp at hnc

theorem claim_C7_formatMarkdown_witness :
    formatMarkdown "# Title\n\n\n\n\nBody\n\n\n\nTail" = "# Title\n\n\nBody\n\n\nTail\n" ∧
    hasThreeBlanksAux 0
      (splitOnChar '\n' (formatMarkdown "# Title\n\n\n\n\nBody\n\n\n\nTail").toList) = false ∧
    (∀ l ∈ splitOnChar '\n' (formatMarkdown "x  \t\nY\t ").toList,
      trimRightIn [' ', '\t'] l = l) :=
  ⟨(claim_C7_formatMarkdown "x").2.2.2.2.1,
   (claim_C7_formatMarkdown "# Title\n\n\n\n\nBody\n\n\n\nTail").2.2.1,
   (claim_C7_formatMarkdown "x  \t\nY\t ").2.1⟩
